import Mathlib

/-!
Verification development for the gorganize declaration-sorting formatter
(package `formatters`, file implementing `aifiFormatter`).

Strings ([]byte / string in Go) are modelled as `List Char`; the examples in
this development are ASCII, where Go's byte-wise comparison coincides with
the character-wise comparison used here.  `token.Pos` values are 1-based
naturals, exactly as in go/token.  Fallible or heap-dependent operations are
modelled explicitly (see `formatAssembleMem` below for the Go `append`
semantics of the reassembly line).
-/

namespace Gorganize

/-- Go strings / byte slices. -/
abbrev Str := List Char

/-- Model of Go's `cmp.Compare` on integers (here on `Nat`): -1, 0 or +1. -/
def cmpN (a b : Nat) : Int :=
  if a < b then -1 else if b < a then 1 else 0

/-- Model of Go's `cmp.Compare` on strings: lexicographic byte comparison. -/
def strCmp : Str → Str → Int
  | [], [] => 0
  | [], _ :: _ => -1
  | _ :: _, [] => 1
  | a :: as, b :: bs =>
    if a.toNat < b.toNat then -1
    else if b.toNat < a.toNat then 1
    else strCmp as bs

/-- `isDigit` from the source: `b >= '0' && b <= '9'`. -/
def isDigit (c : Char) : Bool :=
  '0' ≤ c && c ≤ '9'

/-- `parseNumber(s, i)` from the source, applied to the suffix `s[i:]`
(nonempty at every call site): consumes the maximal digit run starting at the
first character (the first character is taken unconditionally, as in the Go
loop `j := i + 1`), returns the run with leading zeros trimmed
(`strings.TrimLeft(s[i:j], "0")`) together with the rest of the string. -/
def parseNumber (s : Str) : Str × Str :=
  match s with
  | [] => ([], [])
  | c :: rest =>
      ((c :: rest.takeWhile isDigit).dropWhile (fun d => d = '0'),
        rest.dropWhile isDigit)

/-- The loop of `compareStringsWithWholeNumbers`.  The loop state `(i, j)`
is represented by the suffixes `a[i:]`, `b[j:]`; the loop exit
(`i < len(a)` → 1, `j < len(b)` → -1, else 0) is the base cases.  The first
argument is recursion fuel, always instantiated with `a.length`: every
iteration of the Go loop advances `i` by at least one byte, so `a.length`
iterations suffice and the fuel-exhausted arm is unreachable (it requires a
nonempty suffix of `a` longer than the remaining fuel). -/
def cswnGo : Nat → Str → Str → Int
  | _, [], [] => 0
  | _, _ :: _, [] => 1
  | _, [], _ :: _ => -1
  | fuel + 1, x :: xs, y :: ys =>
    if x ≠ y then cmpN x.toNat y.toNat
    else if ¬ isDigit x then cswnGo fuel xs ys
    else
      let pa := parseNumber (x :: xs)
      let pb := parseNumber (y :: ys)
      if pa.1 ≠ pb.1 then
        if pa.1.length ≠ pb.1.length then cmpN pa.1.length pb.1.length
        else strCmp pa.1 pb.1
      else cswnGo fuel pa.2 pb.2
  | 0, _ :: _, _ :: _ => 0

/-- `compareStringsWithWholeNumbers` from the source. -/
def compareStringsWithWholeNumbers (a b : Str) : Int :=
  cswnGo a.length a b

theorem cswnGo_irrel : ∀ (n m : Nat) (a b : Str), a.length ≤ n → a.length ≤ m →
    cswnGo n a b = cswnGo m a b := by
  intro n
  induction n with
  | zero =>
    intro m a b ha _
    cases a with
    | nil => cases b <;> cases m <;> rfl
    | cons x xs => simp at ha
  | succ n ih =>
    intro m a b ha hm
    cases a with
    | nil => cases b <;> cases m <;> rfl
    | cons x xs =>
      cases b with
      | nil => cases m <;> rfl
      | cons y ys =>
        cases m with
        | zero => simp at hm
        | succ m' =>
          simp only [cswnGo]
          have hxs : xs.length ≤ n := by simpa using ha
          have hxs' : xs.length ≤ m' := by simpa using hm
          have hpa : (parseNumber (x :: xs)).2.length ≤ xs.length := by
            simp only [parseNumber]
            exact List.Sublist.length_le (List.dropWhile_sublist _)
          rw [ih m' xs ys hxs hxs', ih m' (parseNumber (x :: xs)).2 (parseNumber (y :: ys)).2
            (by omega) (by omega)]

/-- The one-step unfolding of the source loop. -/
theorem cswn_cons (x : Char) (xs : Str) (y : Char) (ys : Str) :
    compareStringsWithWholeNumbers (x :: xs) (y :: ys) =
      if x ≠ y then cmpN x.toNat y.toNat
      else if ¬ isDigit x then compareStringsWithWholeNumbers xs ys
      else
        let pa := parseNumber (x :: xs)
        let pb := parseNumber (y :: ys)
        if pa.1 ≠ pb.1 then
          if pa.1.length ≠ pb.1.length then cmpN pa.1.length pb.1.length
          else strCmp pa.1 pb.1
        else compareStringsWithWholeNumbers pa.2 pb.2 := by
  unfold compareStringsWithWholeNumbers
  have hpa : (parseNumber (x :: xs)).2.length ≤ xs.length := by
    simp only [parseNumber]
    exact List.Sublist.length_le (List.dropWhile_sublist _)
  simp only [List.length_cons, cswnGo]
  rw [cswnGo_irrel xs.length xs.length xs ys (le_refl _) (le_refl _)]
  rw [cswnGo_irrel xs.length (parseNumber (x :: xs)).2.length
    (parseNumber (x :: xs)).2 (parseNumber (y :: ys)).2 (by omega) (le_refl _)]

/-- `mainMethod` constant from the source. -/
def mainMethod : Str := "main".data

/-- `compareFuncNames` from the source: the `main` function always first. -/
def compareFuncNames (a b : Str) : Int :=
  if a = mainMethod then -1
  else if b = mainMethod then 1
  else compareStringsWithWholeNumbers a b

/-- The declaration token constants of the source (`METHOD` is the synthetic
`token.Token(math.MaxInt)` value distinguishing methods from functions). -/
inductive GoTok where
  | IMPORT
  | CONST
  | VAR
  | TYPE
  | FUNC
  | METHOD
deriving DecidableEq, Repr

open GoTok

/-- The `declOrder` map from the source.  `METHOD` is not a key of the Go
map; a lookup would yield the zero value 0, and the comparator never looks
`METHOD` up (both branches that reach `declOrder` have excluded it). -/
def declOrder : GoTok → Nat
  | IMPORT => 0
  | CONST => 1
  | VAR => 2
  | TYPE => 3
  | FUNC => 4
  | METHOD => 0

/-- Receiver type expressions handled by `getReceiverTypeName`:
identifier, generic instantiation (`IndexExpr` / `IndexListExpr`) and
pointer (`StarExpr`).  Other shapes panic in the source and do not occur in
parsed receivers. -/
inductive RecvExpr where
  | ident (name : Str)
  | indexE (x : RecvExpr)
  | indexListE (x : RecvExpr)
  | star (x : RecvExpr)
deriving DecidableEq, Repr

/-- The recursive unwrapping `rec` inside `getReceiverTypeName`. -/
def recvBaseName : RecvExpr → Str
  | .ident n => n
  | .indexE x => recvBaseName x
  | .indexListE x => recvBaseName x
  | .star x => recvBaseName x

/-- The `declaration` record of the source, restricted to the fields the
sorting logic reads: token, function/method name (`Name`), the name of
`Specs[0]` for type declarations, the receiver field, the original index,
the captured text and the node span (`Pos()` / `End()`, both 1-based,
`End` one past the last character). -/
structure Declaration where
  tok : GoTok
  name : Str
  typeName : Str
  recv : Option RecvExpr
  originalOrder : Nat
  text : Str
  startPos : Nat
  endPos : Nat
deriving DecidableEq, Repr

/-- `declaration.getFunctionName` from the source. -/
def getFunctionName (d : Declaration) : Str :=
  if d.tok ≠ FUNC ∧ d.tok ≠ METHOD then [] else d.name

/-- `declaration.getReceiverTypeName` from the source.  A `METHOD` always
carries a receiver (`getDecl` sets `Tok` to `METHOD` exactly when
`Recv != nil`); the `none` branch is unreachable for method records. -/
def getReceiverTypeName (d : Declaration) : Str :=
  if d.tok ≠ METHOD then []
  else match d.recv with
    | some e => recvBaseName e
    | none => []

/-- `declaration.getTypeName` from the source. -/
def getTypeName (d : Declaration) : Str :=
  if d.tok ≠ TYPE then [] else d.typeName

/-- `declaration.compareMethodToDecl` from the source (receiver of the call
is a `METHOD` at every call site). -/
def compareMethodToDecl (decl other : Declaration) : Int :=
  let receiverName := getReceiverTypeName decl
  match other.tok with
  | IMPORT => 1
  | CONST => 1
  | VAR => 1
  | TYPE =>
      let typeName := getTypeName other
      if typeName = receiverName then 1
      else compareStringsWithWholeNumbers receiverName typeName
  | METHOD =>
      let c := compareStringsWithWholeNumbers receiverName (getReceiverTypeName other)
      if c = 0 then
        compareStringsWithWholeNumbers (getFunctionName decl) (getFunctionName other)
      else c
  | FUNC => -1

/-- The comparison closure passed to `slices.SortFunc` in `Format`.  The
final `switch` is reached only with `a.Tok = b.Tok` not a `METHOD`; the
`METHOD` arm below corresponds to the unreachable `panic` default. -/
def declCmp (a b : Declaration) : Int :=
  if a.tok = METHOD then compareMethodToDecl a b
  else if b.tok = METHOD then -(compareMethodToDecl b a)
  else if a.tok ≠ b.tok then cmpN (declOrder a.tok) (declOrder b.tok)
  else match a.tok with
    | IMPORT => cmpN a.originalOrder b.originalOrder
    | CONST => cmpN a.originalOrder b.originalOrder
    | VAR => cmpN a.originalOrder b.originalOrder
    | TYPE => compareStringsWithWholeNumbers (getTypeName a) (getTypeName b)
    | FUNC => compareFuncNames (getFunctionName a) (getFunctionName b)
    | METHOD => 0

/-! ### The parsed file, `getDecl`, `getDecls` and `newlinePosAfterPackageDecl`

The Go parser is an external collaborator; its output shape (`*ast.File`:
top-level declarations with `Pos()`/`End()` spans, comment groups in source
order, the `package` clause position) is modelled by `AstDecl` / `AstFile`.
All positions are 1-based `token.Pos` values and `End` is one past the last
character, as in go/token. -/

/-- A top-level `ast.Decl`: either an `*ast.FuncDecl` (with optional
receiver) or an `*ast.GenDecl` (import/const/var/type; for a type
declaration `typeName` is the name of `Specs[0]`). -/
inductive AstDecl where
  | funcDecl (pos endPos : Nat) (name : Str) (recv : Option RecvExpr)
  | genDecl (pos endPos : Nat) (tok : GoTok) (typeName : Str)
deriving DecidableEq, Repr

/-- `Pos()` of a declaration node. -/
def AstDecl.pos : AstDecl → Nat
  | .funcDecl p _ _ _ => p
  | .genDecl p _ _ _ => p

/-- `End()` of a declaration node. -/
def AstDecl.endPos : AstDecl → Nat
  | .funcDecl _ e _ _ => e
  | .genDecl _ e _ _ => e

/-- The fields of `*ast.File` that `Format` reads: `Name` (presence of the
package clause), `Package` (its position), `Decls` and `Comments` (comment
group start positions, in source order). -/
structure AstFile where
  packageName : Option Str
  packagePos : Nat
  decls : List AstDecl
  comments : List Nat
deriving DecidableEq, Repr

/-- `getDecl` from the source: build a `declaration` from an `ast.Decl` and
the surrounding `rangeNode` (whose start may have been moved back to an
attached comment block).  The captured text is `src[node.Pos()-1 : node.End()]`;
note that with `End` one past the last character this captures one byte
*past* the declaration (its trailing newline in a well-formed file). -/
def getDecl (src : Str) (d : AstDecl) (startPos order : Nat) : Declaration :=
  match d with
  | .funcDecl _ e name recv =>
      { tok := if recv = none then FUNC else METHOD
        name := name
        typeName := []
        recv := recv
        originalOrder := order
        text := (src.drop (startPos - 1)).take (e - (startPos - 1))
        startPos := startPos
        endPos := e }
  | .genDecl _ e tok typeName =>
      { tok := tok
        name := []
        typeName := typeName
        recv := none
        originalOrder := order
        text := (src.drop (startPos - 1)).take (e - (startPos - 1))
        startPos := startPos
        endPos := e }

/-- `newlinePosAfterPackageDecl` from the source: position of the first
newline at or after the `package` keyword (`bytes.Index` over `src[Package-1:]`),
`none` for `token.NoPos`. -/
def newlinePosAfterPackageDecl (file : AstFile) (src : Str) : Option Nat :=
  match file.packageName with
  | none => none
  | some _ =>
      match (src.drop (file.packagePos - 1)).findIdx? (fun c => c = '\n') with
      | none => none
      | some idx => some (idx + file.packagePos)

/-- The loop body of `getDecls`.  The persistent comment cursor `j`
(monotone, advanced past every comment before `leftBound` at the top of each
iteration) is represented by the remaining comment list, on which
`dropWhile (· < leftBound)` performs exactly the cursor advance.  If the
first remaining comment starts before the declaration, the record's span is
extended back to that comment. -/
def getDeclsLoop (src : Str) : List AstDecl → List Nat → Nat → Nat → List Declaration
  | [], _, _, _ => []
  | d :: ds, comments, leftBound, order =>
      let cs := comments.dropWhile (fun c => c < leftBound)
      let start :=
        match cs.head? with
        | some c => if c < d.pos then c else d.pos
        | none => d.pos
      getDecl src d start order :: getDeclsLoop src ds cs d.endPos (order + 1)

/-- `getDecls` from the source: `leftBound` starts at the newline after the
package clause, or 1 (start of file) when there is none. -/
def getDecls (file : AstFile) (src : Str) : List Declaration :=
  getDeclsLoop src file.decls file.comments
    ((newlinePosAfterPackageDecl file src).getD 1) 0

/-! ### The sort

`Format` sorts with `slices.SortFunc`, whose implementation (Go's pdqsort)
runs plain insertion sort for slices of fewer than 13 elements; every
concrete file considered in this development is in that range.
`insertRevGo` mirrors the inner loop of Go's `insertionSortCmpFunc`
(`for j := i; j > a && cmp(x[j], x[j-1]) < 0; j--`): the accumulator holds
the already-sorted prefix in reverse, and the new element moves left past
every element it compares below. -/

/-- One insertion step of Go's insertion sort, on the reversed prefix. -/
def insertRevGo (cmp : α → α → Int) (y : α) : List α → List α
  | [] => [y]
  | p :: rev => if cmp y p < 0 then p :: insertRevGo cmp y rev else y :: p :: rev

/-- Go's insertion sort (the `slices.SortFunc` algorithm for short slices). -/
def insertionSortGo (cmp : α → α → Int) (l : List α) : List α :=
  (l.foldl (fun rev x => insertRevGo cmp x rev) []).reverse

/-- The sorted declaration sequence `Format` assembles its output from. -/
def sortedDecls (file : AstFile) (src : Str) : List Declaration :=
  insertionSortGo declCmp (getDecls file src)

/-! ### Reassembly: line 84 and Go `append` semantics

The final line of `Format` is
`append(append(src[0:firstDeclStart-1], rewritten...), src[lastDeclEnd:]...)`.
Per the Go specification, `append` re-uses the destination's underlying
array whenever the capacity suffices, and the two slice expressions above
alias `src`'s array, so the assembly is modelled against an explicit buffer:
the array holds `src` followed by uninitialised cells up to the capacity
`cap` (`cap ≥ len(src)`; the pipeline's `Formatter.Format` hands each stage
a buffer with `cap = len`).  `goWriteAt A i xs` is the in-place element copy
performed by a fitting `append`. -/

/-- Store `xs` into the buffer `A` starting at index `i` (0-based). -/
def goWriteAt (A : Str) (i : Nat) (xs : Str) : Str :=
  A.take i ++ xs ++ A.drop (i + xs.length)

/-- The value, final input-buffer contents (first `src.length` cells) and
aliasing of line 84.  `f` is `firstDeclStart`, `lastEnd` is `lastDeclEnd`,
`rw` is `rewritten`.  The outer `append` reads `src[lastDeclEnd:]` from the
(possibly already overwritten) array.  The returned flag is true exactly
when the result slice still occupies `src`'s array. -/
def formatAssembleMem (src : Str) (cap f lastEnd : Nat) (rw : Str) :
    Str × Str × Bool :=
  let L := src.length
  let A := src ++ List.replicate (cap - L) (Char.ofNat 0)
  if (f - 1) + rw.length ≤ cap then
    -- inner append fits: rewritten is copied into src's array at f-1
    let A1 := goWriteAt A (f - 1) rw
    let len1 := (f - 1) + rw.length
    let tail := (A1.drop lastEnd).take (L - lastEnd)
    if len1 + (L - lastEnd) ≤ cap then
      let A2 := goWriteAt A1 len1 tail
      ((A2.take (len1 + (L - lastEnd))), A2.take L, true)
    else
      -- outer append reallocates, but the array was already overwritten
      (A1.take len1 ++ tail, A1.take L, false)
  else
    -- inner append reallocates; src's array is untouched
    (src.take (f - 1) ++ rw ++ src.drop lastEnd, src, false)

/-- `bytes.Join(texts, newline)`: the captured texts joined by exactly one
newline byte. -/
def joinNewline : List Str → Str
  | [] => []
  | [t] => t
  | t :: ts => t ++ '\n' :: joinNewline ts

/-- `aifiFormatter.Format`, returning (output bytes, final contents of the
input buffer, whether the returned slice aliases the input buffer).  The
parse step is the external collaborator: the `AstFile` argument stands for
`parser.ParseFile`'s result on `src`.  With zero declarations the source
returns `bytes.Clone(src)` (fresh buffer, input untouched). -/
def FormatMem (file : AstFile) (src : Str) (cap : Nat) : Str × Str × Bool :=
  match getDecls file src with
  | [] => (src, src, false)
  | d :: ds =>
      formatAssembleMem src cap d.startPos (((d :: ds).getLast (by simp)).endPos)
        (joinNewline ((insertionSortGo declCmp (d :: ds)).map Declaration.text))

/-- The output bytes of `aifiFormatter.Format`. -/
def Format (file : AstFile) (src : Str) (cap : Nat) : Str :=
  (FormatMem file src cap).1

/-! ### Basic properties of the comparison primitives -/

theorem cmpN_antisymm (a b : Nat) : cmpN a b = -(cmpN b a) := by
  unfold cmpN
  split_ifs <;> omega

theorem strCmp_antisymm (a : Str) : ∀ b, strCmp a b = -(strCmp b a) := by
  induction a with
  | nil => intro b; cases b <;> simp [strCmp]
  | cons x xs ih =>
    intro b
    cases b with
    | nil => simp [strCmp]
    | cons y ys =>
      simp only [strCmp]
      rcases Nat.lt_trichotomy x.toNat y.toNat with h | h | h
      · rw [if_pos h, if_neg (by omega), if_pos h]
      · rw [if_neg (by omega), if_neg (by omega), if_neg (by omega), if_neg (by omega)]
        exact ih ys
      · rw [if_neg (by omega), if_pos h, if_pos h]; norm_num

theorem cswn_antisymm (a b : Str) :
    compareStringsWithWholeNumbers a b = -(compareStringsWithWholeNumbers b a) := by
  generalize hn : a.length = n
  induction n using Nat.strong_induction_on generalizing a b with
  | _ n ih =>
    cases a with
    | nil => cases b <;> simp [compareStringsWithWholeNumbers, cswnGo]
    | cons x xs =>
      cases b with
      | nil => simp [compareStringsWithWholeNumbers, cswnGo]
      | cons y ys =>
        by_cases hxy : x = y
        · subst hxy
          by_cases hd : isDigit x
          · by_cases hne : (parseNumber (x :: xs)).1 = (parseNumber (x :: ys)).1
            · have hlt : (parseNumber (x :: xs)).2.length < n := by
                subst hn
                simp only [parseNumber, List.length_cons]
                exact Nat.lt_succ_of_le (List.Sublist.length_le (List.dropWhile_sublist _))
              have hrec := ih ((parseNumber (x :: xs)).2.length) hlt
                (parseNumber (x :: xs)).2 (parseNumber (x :: ys)).2 rfl
              rw [cswn_cons, cswn_cons]
              simp [hd, hne, hrec]
            · by_cases hl : (parseNumber (x :: xs)).1.length = (parseNumber (x :: ys)).1.length
              · have := strCmp_antisymm (parseNumber (x :: xs)).1 (parseNumber (x :: ys)).1
                rw [cswn_cons, cswn_cons]
                simp [hd, hne, Ne.symm hne, hl, this]
              · have hl2 : ¬(parseNumber (x :: ys)).1.length = (parseNumber (x :: xs)).1.length :=
                  fun hh => hl hh.symm
                have := cmpN_antisymm (parseNumber (x :: xs)).1.length (parseNumber (x :: ys)).1.length
                rw [cswn_cons, cswn_cons]
                simp [hd, hne, Ne.symm hne, hl, hl2, this]
          · have hlt : xs.length < n := by subst hn; simp
            have hrec := ih xs.length hlt xs ys rfl
            rw [cswn_cons, cswn_cons]
            simp [hd, hrec]
        · rw [cswn_cons, cswn_cons]
          simp [hxy, Ne.symm hxy, cmpN_antisymm x.toNat y.toNat]

theorem cswn_self (a : Str) : compareStringsWithWholeNumbers a a = 0 := by
  have h := cswn_antisymm a a
  omega

theorem compareFuncNames_antisymm (a b : Str)
    (h : ¬(a = mainMethod ∧ b = mainMethod)) :
    compareFuncNames a b = -(compareFuncNames b a) := by
  unfold compareFuncNames
  by_cases ha : a = mainMethod
  · have hb : b ≠ mainMethod := fun hb => h ⟨ha, hb⟩
    rw [if_pos ha, if_neg hb, if_pos ha]
  · by_cases hb : b = mainMethod
    · rw [if_neg ha, if_pos hb, if_pos hb]; norm_num
    · rw [if_neg ha, if_neg hb, if_neg hb, if_neg ha]
      exact cswn_antisymm a b

/-! ### Properties of the declaration comparator -/

/-- `a` and `b` are both functions named `main` (the configuration on which
`compareFuncNames` returns -1 in both directions). -/
def bothMainFuncs (a b : Declaration) : Prop :=
  a.tok = FUNC ∧ b.tok = FUNC ∧ getFunctionName a = mainMethod ∧ getFunctionName b = mainMethod

instance (a b : Declaration) : Decidable (bothMainFuncs a b) := by
  unfold bothMainFuncs; infer_instance

/-- Equality of every field the comparator consults. -/
def sameSortKey (a b : Declaration) : Prop :=
  a.tok = b.tok ∧ getFunctionName a = getFunctionName b ∧
    getTypeName a = getTypeName b ∧ getReceiverTypeName a = getReceiverTypeName b ∧
    a.originalOrder = b.originalOrder

instance (a b : Declaration) : Decidable (sameSortKey a b) := by
  unfold sameSortKey; infer_instance

theorem cmtd_method_antisymm (a b : Declaration) (hb : b.tok = METHOD) (ha : a.tok = METHOD) :
    compareMethodToDecl a b = -(compareMethodToDecl b a) := by
  unfold compareMethodToDecl
  rw [ha, hb]
  have hsym := cswn_antisymm (getReceiverTypeName a) (getReceiverTypeName b)
  by_cases hc : compareStringsWithWholeNumbers (getReceiverTypeName a) (getReceiverTypeName b) = 0
  · have hc2 : compareStringsWithWholeNumbers (getReceiverTypeName b) (getReceiverTypeName a) = 0 := by
      omega
    simp [hc, hc2, cswn_antisymm (getFunctionName a) (getFunctionName b)]
  · have hc2 : ¬ compareStringsWithWholeNumbers (getReceiverTypeName b) (getReceiverTypeName a) = 0 := by
      omega
    simp [hc, hc2, hsym]

theorem declCmp_antisymm (a b : Declaration) (h : ¬ bothMainFuncs a b) :
    declCmp a b = -(declCmp b a) := by
  unfold declCmp
  by_cases ham : a.tok = METHOD
  · by_cases hbm : b.tok = METHOD
    · simp only [ham, hbm, if_pos]
      exact cmtd_method_antisymm a b hbm ham
    · simp [ham, hbm]
  · by_cases hbm : b.tok = METHOD
    · simp [ham, hbm]
    · by_cases hab : a.tok = b.tok
      · rw [if_neg ham, if_neg hbm, if_neg (by simp [hab]), if_neg hbm, if_neg ham,
          if_neg (by simp [hab])]
        rw [← hab]
        cases htok : a.tok with
        | METHOD => exact absurd htok ham
        | IMPORT => simpa using cmpN_antisymm a.originalOrder b.originalOrder
        | CONST => simpa using cmpN_antisymm a.originalOrder b.originalOrder
        | VAR => simpa using cmpN_antisymm a.originalOrder b.originalOrder
        | TYPE => simpa using cswn_antisymm (getTypeName a) (getTypeName b)
        | FUNC =>
          refine compareFuncNames_antisymm _ _ ?_
          rintro ⟨h1, h2⟩
          exact h ⟨htok, hab ▸ htok, h1, h2⟩
      · rw [if_neg ham, if_neg hbm, if_pos (by simpa using hab), if_neg hbm, if_neg ham,
          if_pos (by simp; exact fun hh => hab hh.symm)]
        exact cmpN_antisymm _ _

theorem declCmp_eq_zero_of_sameSortKey (a b : Declaration) (hk : sameSortKey a b)
    (h : ¬ bothMainFuncs a b) : declCmp a b = 0 := by
  obtain ⟨ht, hf, hty, hr, ho⟩ := hk
  unfold declCmp
  by_cases ham : a.tok = METHOD
  · rw [if_pos ham]
    unfold compareMethodToDecl
    rw [← ht, ham]
    simp [← hr, cswn_self, ← hf]
  · rw [if_neg ham, if_neg (ht ▸ ham), if_neg (by simp [ht])]
    cases htok : a.tok with
    | METHOD => exact absurd htok ham
    | IMPORT => simp [cmpN, ho]
    | CONST => simp [cmpN, ho]
    | VAR => simp [cmpN, ho]
    | TYPE => simp [hty, cswn_self]
    | FUNC =>
      unfold compareFuncNames
      by_cases hmain : getFunctionName a = mainMethod
      · exact absurd ⟨htok, ht ▸ htok, hmain, hf ▸ hmain⟩ h
      · rw [if_neg hmain, if_neg (hf ▸ hmain), hf, cswn_self]

/-! ### The insertion sort: permutation, and fixpoint on sorted input -/

theorem insertRevGo_perm (cmp : α → α → Int) (y : α) (rev : List α) :
    (insertRevGo cmp y rev).Perm (y :: rev) := by
  induction rev with
  | nil => simp [insertRevGo]
  | cons p rev ih =>
    simp only [insertRevGo]
    split_ifs with h
    · exact (ih.cons p).trans (List.Perm.swap y p rev)
    · exact List.Perm.refl _

theorem foldl_insertRevGo_perm (cmp : α → α → Int) :
    ∀ (l acc : List α),
      (l.foldl (fun rev x => insertRevGo cmp x rev) acc).Perm (l.reverse ++ acc) := by
  intro l
  induction l with
  | nil => intro acc; simp
  | cons x l ih =>
    intro acc
    have h1 := ih (insertRevGo cmp x acc)
    have h2 : (l.reverse ++ insertRevGo cmp x acc).Perm (l.reverse ++ (x :: acc)) :=
      (insertRevGo_perm cmp x acc).append_left l.reverse
    simpa [List.append_assoc] using (h1.trans h2)

theorem insertionSortGo_perm (cmp : α → α → Int) (l : List α) :
    (insertionSortGo cmp l).Perm l := by
  unfold insertionSortGo
  refine (List.reverse_perm _).trans ?_
  refine (foldl_insertRevGo_perm cmp l []).trans ?_
  simp only [List.append_nil]
  exact List.reverse_perm l

theorem foldl_insertRevGo_sorted (cmp : α → α → Int) :
    ∀ (l : List α) (x : α) (rev : List α),
      List.Chain' (fun a b => ¬ cmp b a < 0) (x :: l) →
      l.foldl (fun r z => insertRevGo cmp z r) (x :: rev) = l.reverse ++ (x :: rev) := by
  intro l
  induction l with
  | nil => intro x rev _; simp
  | cons y l ih =>
    intro x rev hch
    rw [List.chain'_cons] at hch
    have hstep : insertRevGo cmp y (x :: rev) = y :: x :: rev := by
      simp [insertRevGo, hch.1]
    simp only [List.foldl_cons, hstep]
    rw [ih y (x :: rev) hch.2]
    simp

theorem insertionSortGo_eq_self (cmp : α → α → Int) (l : List α)
    (h : l.Chain' (fun a b => ¬ cmp b a < 0)) : insertionSortGo cmp l = l := by
  cases l with
  | nil => rfl
  | cons x l =>
    unfold insertionSortGo
    simp only [List.foldl_cons]
    have hx : insertRevGo cmp x [] = [x] := rfl
    rw [hx, foldl_insertRevGo_sorted cmp l x [] h]
    simp

/-- The element a single insertion step adds never crosses a `p`-element it
must stay behind: if `y` compares no-less-than every `p`-element of the
reversed prefix, the `p`-filtered prefix (in reversed order) just gains `y`
at the front when `p y`, and is unchanged otherwise. -/
theorem insertRevGo_filter (cmp : α → α → Int) (p : α → Bool) (y : α) :
    ∀ rev : List α, (∀ z ∈ rev, p z = true → p y = true → ¬ cmp y z < 0) →
      (insertRevGo cmp y rev).filter p = (if p y then [y] else []) ++ rev.filter p := by
  intro rev
  induction rev with
  | nil =>
    intro _
    by_cases hy : p y = true
    · simp [insertRevGo, hy]
    · have hy2 : p y = false := by simpa using hy
      simp [insertRevGo, hy2]
  | cons z rev ih =>
    intro h
    by_cases hc : cmp y z < 0
    · simp only [insertRevGo, if_pos hc]
      rw [List.filter_cons, List.filter_cons,
        ih (fun w hw => h w (List.mem_cons_of_mem z hw))]
      by_cases hy : p y = true
      · have hz : p z = false := by
          by_contra hz
          exact h z (List.mem_cons_self z rev) (by simpa using hz) hy hc
        rw [hz, hy]
        simp
      · have hy2 : p y = false := by simpa using hy
        rw [hy2]
        simp
    · simp only [insertRevGo, if_neg hc]
      rw [List.filter_cons]
      by_cases hy : p y = true
      · rw [hy]
        simp
      · have hy2 : p y = false := by simpa using hy
        rw [hy2]
        simp

/-- Folding the insertion steps over the input preserves the `p`-filtered
subsequence whenever, within `p`-elements, no later element of the input
compares below an earlier one. -/
theorem foldl_insertRevGo_filter (cmp : α → α → Int) (p : α → Bool) :
    ∀ (l rev : List α),
      l.Pairwise (fun a b => p a = true → p b = true → ¬ cmp b a < 0) →
      (∀ z ∈ rev, ∀ x ∈ l, p z = true → p x = true → ¬ cmp x z < 0) →
      (l.foldl (fun r y => insertRevGo cmp y r) rev).filter p =
        (l.filter p).reverse ++ rev.filter p := by
  intro l
  induction l with
  | nil =>
    intro rev _ _
    simp
  | cons x l ih =>
    intro rev hpair hcross
    rw [List.pairwise_cons] at hpair
    have hcross' : ∀ z ∈ insertRevGo cmp x rev, ∀ x' ∈ l,
        p z = true → p x' = true → ¬ cmp x' z < 0 := by
      intro z hz x' hx' hpz hpx'
      rcases List.mem_cons.mp ((insertRevGo_perm cmp x rev).mem_iff.mp hz) with hz1 | hz2
      · subst hz1
        exact hpair.1 x' hx' hpz hpx'
      · exact hcross z hz2 x' (by simp [hx']) hpz hpx'
    simp only [List.foldl_cons]
    rw [ih (insertRevGo cmp x rev) hpair.2 hcross']
    rw [insertRevGo_filter cmp p x rev
      (fun z hz hpz hpx => hcross z hz x (by simp) hpz hpx)]
    rw [List.filter_cons]
    by_cases hx : p x = true
    · rw [hx]
      simp
    · have hx2 : p x = false := by simpa using hx
      rw [hx2]
      simp

/-- The sort leaves the `p`-filtered subsequence exactly in input order,
whenever later `p`-elements never compare below earlier ones (no sortedness
or consistency of the comparator is assumed). -/
theorem insertionSortGo_filter_stable (cmp : α → α → Int) (p : α → Bool) (l : List α)
    (h : l.Pairwise (fun a b => p a = true → p b = true → ¬ cmp b a < 0)) :
    (insertionSortGo cmp l).filter p = l.filter p := by
  unfold insertionSortGo
  rw [List.filter_reverse]
  rw [foldl_insertRevGo_filter cmp p l [] h (by simp)]
  simp

/-! ### Span tiling: well-formed position data for reassembly

`spanTiledB src l` states that the captured spans in `l` are in-bounds,
carry the text `src[startPos-1 : endPos]`, and that consecutive spans are
separated by exactly one newline byte (`startPos' = endPos + 2` with a
newline at position `endPos + 1`).  This is the layout `getDecls` produces
on a file whose declarations are separated by one blank line (each span
already captures the byte following the declaration). -/

/-- The gap between a span and the next: exactly one newline byte. -/
def gapOkB (src : Str) (d : Declaration) : List Declaration → Bool
  | [] => true
  | d' :: _ => decide (d'.startPos = d.endPos + 2) && decide (src[d.endPos]? = some '\n')

def spanTiledB (src : Str) : List Declaration → Bool
  | [] => true
  | d :: rest =>
      decide (d.startPos ≤ d.endPos) && decide (d.endPos ≤ src.length) &&
      decide (d.text = (src.drop (d.startPos - 1)).take (d.endPos - (d.startPos - 1))) &&
      gapOkB src d rest && spanTiledB src rest

theorem spanTiledB_cons_iff (src : Str) (d : Declaration) (rest : List Declaration) :
    spanTiledB src (d :: rest) = true ↔
      d.startPos ≤ d.endPos ∧ d.endPos ≤ src.length ∧
      d.text = (src.drop (d.startPos - 1)).take (d.endPos - (d.startPos - 1)) ∧
      gapOkB src d rest = true ∧ spanTiledB src rest = true := by
  simp [spanTiledB, Bool.and_eq_true, and_assoc]

theorem take_append_of_ge {α : Type} (x y : List α) {n : Nat} (h : x.length ≤ n) :
    (x ++ y).take n = x ++ y.take (n - x.length) := by
  rw [List.take_append_eq_append_take]
  simp [List.take_of_length_le h]

theorem drop_append_of_ge {α : Type} (x y : List α) {n : Nat} (h : x.length ≤ n) :
    (x ++ y).drop n = y.drop (n - x.length) := by
  rw [List.drop_append_eq_append_drop]
  simp [List.drop_eq_nil_of_le h]

/-- One captured span extends a source prefix: `src[0:s-1] + src[s-1:e] = src[0:e]`. -/
theorem take_span (src : Str) (s e : Nat) (hse : s - 1 ≤ e) :
    src.take (s - 1) ++ (src.drop (s - 1)).take (e - (s - 1)) = src.take e := by
  rw [← List.take_add]
  congr 1
  omega

theorem spanTiledB_getLast_le (src : Str) :
    ∀ (d : Declaration) (ds : List Declaration),
      spanTiledB src (d :: ds) = true →
      ((d :: ds).getLast (by simp)).endPos ≤ src.length := by
  intro d ds
  induction ds generalizing d with
  | nil =>
    intro h
    rw [spanTiledB_cons_iff] at h
    simpa using h.2.1
  | cons d' ds ih =>
    intro h
    rw [spanTiledB_cons_iff] at h
    have := ih d' h.2.2.2.2
    rw [List.getLast_cons (by simp)]
    exact this

/-- The reassembled region equals the original bytes: prefix up to the first
span plus the joined texts is the prefix up to the last span's end. -/
theorem tile_join (src : Str) :
    ∀ (d : Declaration) (ds : List Declaration),
      spanTiledB src (d :: ds) = true →
      src.take (d.startPos - 1) ++ joinNewline ((d :: ds).map Declaration.text) =
        src.take (((d :: ds).getLast (by simp)).endPos) := by
  intro d ds
  induction ds generalizing d with
  | nil =>
    intro h
    rw [spanTiledB_cons_iff] at h
    obtain ⟨h1, h2, h3, -, -⟩ := h
    simp only [List.map_cons, List.map_nil, joinNewline, List.getLast_singleton]
    rw [h3]
    exact take_span src d.startPos d.endPos (by omega)
  | cons d' ds ih =>
    intro h
    rw [spanTiledB_cons_iff] at h
    obtain ⟨h1, h2, h3, hgap, hrest⟩ := h
    simp only [gapOkB, Bool.and_eq_true, decide_eq_true_eq] at hgap
    obtain ⟨h4, h5⟩ := hgap
    have hrec := ih d' hrest
    have hstep : src.take (d.startPos - 1) ++ d.text ++ ['\n'] = src.take (d'.startPos - 1) := by
      rw [h3, take_span src d.startPos d.endPos (by omega)]
      rw [h4]
      have h21 : d.endPos + 2 - 1 = d.endPos + 1 := by omega
      rw [h21, List.take_succ, h5]
      rfl
    have hstep2 : ∀ J : Str,
        src.take (d.startPos - 1) ++ (d.text ++ '\n' :: J) = src.take (d'.startPos - 1) ++ J := by
      intro J
      have := congrArg (fun z => z ++ J) hstep
      simpa [List.append_assoc] using this
    calc src.take (d.startPos - 1) ++ joinNewline ((d :: d' :: ds).map Declaration.text)
        = src.take (d.startPos - 1) ++ (d.text ++ '\n' :: joinNewline ((d' :: ds).map Declaration.text)) := by
          rfl
      _ = src.take (d'.startPos - 1) ++ joinNewline ((d' :: ds).map Declaration.text) :=
          hstep2 _
      _ = src.take (((d' :: ds).getLast (by simp)).endPos) := hrec
      _ = src.take (((d :: d' :: ds).getLast (by simp)).endPos) := by
          conv_rhs => rw [List.getLast_cons (List.cons_ne_nil d' ds)]

/-! ### Reassembly lemmas -/

theorem pad_drop_take (src pad : Str) (n : Nat) (h : n ≤ src.length) :
    ((src ++ pad).drop n).take (src.length - n) = src.drop n := by
  rw [List.drop_append_eq_append_drop]
  have h0 : n - src.length = 0 := by omega
  rw [h0, List.drop_zero]
  rw [List.take_append_of_le_length (by simp [Nat.le_refl])]
  exact List.take_of_length_le (by simp)

/-- Both `append`s of line 84 fit within the input buffer's capacity exactly
when the rewritten region is no longer than the original region
(`f-1 + |rw| ≤ lastEnd ≤ len(src) ≤ cap`): the output is written in place
into the input buffer, the returned slice aliases it, and the buffer's
contents become the output followed by the leftover original bytes. -/
theorem formatAssembleMem_inplace (src : Str) (cap f lastEnd : Nat) (rwb : Str)
    (h1 : f - 1 + rwb.length ≤ lastEnd) (h2 : lastEnd ≤ src.length)
    (h3 : src.length ≤ cap) :
    formatAssembleMem src cap f lastEnd rwb =
      (src.take (f - 1) ++ rwb ++ src.drop lastEnd,
       (src.take (f - 1) ++ rwb ++ src.drop lastEnd) ++
         src.drop (f - 1 + rwb.length + (src.length - lastEnd)),
       true) := by
  have hf1 : f - 1 ≤ src.length := by omega
  unfold formatAssembleMem
  simp only
  rw [if_pos (by omega)]
  set L := src.length with hL
  set pad := List.replicate (cap - L) (Char.ofNat 0) with hpad
  set A := src ++ pad with hA
  have hP : A.take (f - 1) = src.take (f - 1) := by
    rw [hA]; exact List.take_append_of_le_length hf1
  have hPlen : (src.take (f - 1)).length = f - 1 := by
    simp [Nat.min_eq_left hf1]
  set len1 := f - 1 + rwb.length with hlen1
  have hA1 : goWriteAt A (f - 1) rwb = (src.take (f - 1) ++ rwb) ++ A.drop len1 := by
    unfold goWriteAt
    rw [hP, List.append_assoc]
  have hPrwlen : (src.take (f - 1) ++ rwb).length = len1 := by
    simp [hPlen, hlen1]
  have hdropA1 : ∀ n, len1 ≤ n → (goWriteAt A (f - 1) rwb).drop n = A.drop n := by
    intro n hn
    rw [hA1, drop_append_of_ge _ _ (by omega : (src.take (f - 1) ++ rwb).length ≤ n),
      hPrwlen, List.drop_drop]
    congr 1
    omega
  have htail : ((goWriteAt A (f - 1) rwb).drop lastEnd).take (L - lastEnd) = src.drop lastEnd := by
    rw [hdropA1 lastEnd h1, hA]
    exact pad_drop_take src pad lastEnd h2
  rw [htail]
  rw [if_pos (by omega)]
  set len2 := len1 + (L - lastEnd) with hlen2
  have hdlen : (src.drop lastEnd).length = L - lastEnd := by simp
  have hA1take : (goWriteAt A (f - 1) rwb).take len1 = src.take (f - 1) ++ rwb := by
    rw [hA1, List.take_append_of_le_length (le_of_eq hPrwlen.symm)]
    exact List.take_of_length_le (le_of_eq hPrwlen)
  have hgw : ∀ (B : Str) (i : Nat) (xs : Str), goWriteAt B i xs = B.take i ++ xs ++ B.drop (i + xs.length) :=
    fun B i xs => rfl
  have hA2 : goWriteAt (goWriteAt A (f - 1) rwb) len1 (src.drop lastEnd) =
      ((src.take (f - 1) ++ rwb) ++ src.drop lastEnd) ++ A.drop len2 := by
    rw [hgw (goWriteAt A (f - 1) rwb) len1 (src.drop lastEnd)]
    rw [hA1take, hdropA1 (len1 + (src.drop lastEnd).length) (by omega)]
    congr 1
    rw [hdlen]
  have hvlen : (((src.take (f - 1) ++ rwb) ++ src.drop lastEnd)).length = len2 := by
    simp [hPlen, hlen1, hlen2]
    omega
  have hval : (goWriteAt (goWriteAt A (f - 1) rwb) len1 (src.drop lastEnd)).take len2 =
      (src.take (f - 1) ++ rwb) ++ src.drop lastEnd := by
    rw [hA2, List.take_append_of_le_length (le_of_eq hvlen.symm)]
    exact List.take_of_length_le (le_of_eq hvlen)
  have hbuf : (goWriteAt (goWriteAt A (f - 1) rwb) len1 (src.drop lastEnd)).take L =
      ((src.take (f - 1) ++ rwb) ++ src.drop lastEnd) ++ src.drop len2 := by
    rw [hA2, take_append_of_ge _ _ (by omega : (((src.take (f-1) ++ rwb) ++ src.drop lastEnd)).length ≤ L)]
    congr 1
    rw [hvlen, hA]
    exact pad_drop_take src pad len2 (by omega)
  rw [hval, hbuf]

/-- `Format` is the identity on a file whose declaration records are already
sorted (non-strictly, in both comparator directions) and tile the source
with single-newline gaps. -/
theorem format_eq_self (file : AstFile) (src : Str) (cap : Nat)
    (htile : spanTiledB src (getDecls file src) = true)
    (hsorted : (getDecls file src).Pairwise (fun a b => declCmp a b ≤ 0 ∧ 0 ≤ declCmp b a))
    (hcap : src.length ≤ cap) :
    Format file src cap = src := by
  unfold Format FormatMem
  cases hd : getDecls file src with
  | nil => rfl
  | cons d ds =>
    rw [hd] at htile hsorted
    have hid : insertionSortGo declCmp (d :: ds) = d :: ds := by
      refine insertionSortGo_eq_self declCmp (d :: ds) (hsorted.chain'.imp ?_)
      intro a b hab
      omega
    simp only [hid]
    have htj := tile_join src d ds htile
    have hle := spanTiledB_getLast_le src d ds htile
    rw [spanTiledB_cons_iff] at htile
    obtain ⟨hse, heL, -, -, -⟩ := htile
    have hlen : d.startPos - 1 +
        (joinNewline ((d :: ds).map Declaration.text)).length =
        ((d :: ds).getLast (by simp)).endPos := by
      have := congrArg List.length htj
      simp only [List.length_append, List.length_take] at this
      omega
    rw [formatAssembleMem_inplace src cap d.startPos
      (((d :: ds).getLast (by simp)).endPos)
      (joinNewline ((d :: ds).map Declaration.text)) (le_of_eq hlen) hle hcap]
    simp only
    calc src.take (d.startPos - 1) ++ joinNewline ((d :: ds).map Declaration.text) ++
          src.drop (((d :: ds).getLast (by simp)).endPos)
        = src.take (((d :: ds).getLast (by simp)).endPos) ++
          src.drop (((d :: ds).getLast (by simp)).endPos) := by
          rw [htj]
      _ = src := List.take_append_drop _ _

/-! ### Structure of `getDecls` -/

theorem getDecl_startPos (src : Str) (d : AstDecl) (s o : Nat) :
    (getDecl src d s o).startPos = s := by cases d <;> rfl

theorem getDecl_endPos (src : Str) (d : AstDecl) (s o : Nat) :
    (getDecl src d s o).endPos = d.endPos := by cases d <;> rfl

theorem getDecl_text (src : Str) (d : AstDecl) (s o : Nat) :
    (getDecl src d s o).text = (src.drop (s - 1)).take (d.endPos - (s - 1)) := by
  cases d <;> rfl

theorem getDecl_originalOrder (src : Str) (d : AstDecl) (s o : Nat) :
    (getDecl src d s o).originalOrder = o := by cases d <;> rfl

theorem head_dropWhile_not_lt (lb : Nat) :
    ∀ (cs : List Nat) (c : Nat), (cs.dropWhile (fun x => x < lb)).head? = some c → lb ≤ c := by
  intro cs
  induction cs with
  | nil => intro c h; simp [List.dropWhile] at h
  | cons x cs ih =>
    intro c h
    by_cases hx : x < lb
    · rw [List.dropWhile_cons_of_pos (by simpa using hx)] at h
      exact ih c h
    · rw [List.dropWhile_cons_of_neg (by simpa using hx)] at h
      simp only [List.head?_cons, Option.some.injEq] at h
      omega

/-- Every record produced by the `getDecls` loop has its span start at or
after the loop's initial left bound (comments before the bound are never
attached). -/
theorem getDeclsLoop_startPos_ge (src : Str) :
    ∀ (ds : List AstDecl) (cs : List Nat) (lb order p : Nat),
      p ≤ lb → (∀ d ∈ ds, p ≤ d.pos ∧ d.pos ≤ d.endPos) →
      ∀ r ∈ getDeclsLoop src ds cs lb order, p ≤ r.startPos := by
  intro ds
  induction ds with
  | nil => intro cs lb order p hp hd r hr; simp [getDeclsLoop] at hr
  | cons d ds ih =>
    intro cs lb order p hp hd r hr
    simp only [getDeclsLoop] at hr
    rcases List.mem_cons.mp hr with hr | hr
    · subst hr
      rw [getDecl_startPos]
      cases hh : (cs.dropWhile (fun x => x < lb)).head? with
      | none => simp [hh]; exact (hd d (by simp)).1
      | some c =>
        have hc := head_dropWhile_not_lt lb cs c hh
        simp only [hh]
        split_ifs with hlt
        · omega
        · exact (hd d (by simp)).1
    · have hd0 := hd d (by simp)
      refine ih _ d.endPos (order + 1) p (by omega) ?_ r hr
      intro d' hd'
      exact hd d' (by simp [hd'])

/-- When the first comment block at or after the left bound starts before the
first declaration, the first declaration record's span is extended back to
that comment: the comment is carried by the record. -/
theorem getDecls_first_comment_attached (file : AstFile) (src : Str) (p : Nat)
    (d₀ : AstDecl) (ds : List AstDecl) (c : Nat)
    (hp : newlinePosAfterPackageDecl file src = some p)
    (hdecls : file.decls = d₀ :: ds)
    (hc : (file.comments.dropWhile (fun x => x < p)).head? = some c)
    (hlt : c < d₀.pos) :
    ∃ r rs, getDecls file src = r :: rs ∧ r.startPos = c ∧
      r.text = (src.drop (c - 1)).take (d₀.endPos - (c - 1)) := by
  unfold getDecls
  rw [hp, hdecls]
  simp only [getDeclsLoop, Option.getD_some]
  rw [hc]
  simp only [if_pos hlt]
  exact ⟨_, _, rfl, getDecl_startPos src d₀ c 0, getDecl_text src d₀ c 0⟩

theorem getDeclsLoop_order_ge (src : Str) :
    ∀ (ds : List AstDecl) (cs : List Nat) (lb order : Nat),
      ∀ r ∈ getDeclsLoop src ds cs lb order, order ≤ r.originalOrder := by
  intro ds
  induction ds with
  | nil => intro cs lb order r hr; simp [getDeclsLoop] at hr
  | cons d ds ih =>
    intro cs lb order r hr
    simp only [getDeclsLoop] at hr
    rcases List.mem_cons.mp hr with hr | hr
    · subst hr; rw [getDecl_originalOrder]
    · have := ih _ d.endPos (order + 1) r hr
      omega

/-- `getDecls` numbers the records by their original index, so the
`originalOrder` fields are strictly increasing along the list. -/
theorem getDeclsLoop_orders_pairwise (src : Str) :
    ∀ (ds : List AstDecl) (cs : List Nat) (lb order : Nat),
      (getDeclsLoop src ds cs lb order).Pairwise
        (fun a b => a.originalOrder < b.originalOrder) := by
  intro ds
  induction ds with
  | nil => intro cs lb order; simp [getDeclsLoop]
  | cons d ds ih =>
    intro cs lb order
    simp only [getDeclsLoop]
    refine List.Pairwise.cons ?_ (ih _ d.endPos (order + 1))
    intro r hr
    have := getDeclsLoop_order_ge src ds _ d.endPos (order + 1) r hr
    rw [getDecl_originalOrder]
    omega

theorem getDecls_orders_pairwise (file : AstFile) (src : Str) :
    (getDecls file src).Pairwise (fun a b => a.originalOrder < b.originalOrder) :=
  getDeclsLoop_orders_pairwise src file.decls file.comments _ 0

theorem take_take_of_le {α : Type} (l : List α) {k n : Nat} (h : k ≤ n) :
    (l.take n).take k = l.take k := by
  rw [List.take_take, Nat.min_eq_left h]

theorem goWriteAt_take_before (B : Str) (i : Nat) (xs : Str) (k : Nat)
    (hk : k ≤ i) (hi : i ≤ B.length) :
    (goWriteAt B i xs).take k = B.take k := by
  unfold goWriteAt
  rw [List.take_append_of_le_length (by
    simp only [List.length_append, List.length_take]
    omega)]
  rw [List.take_append_of_le_length (by
    simp only [List.length_take]
    omega)]
  exact take_take_of_le B hk

/-- Whatever branch line 84 takes, the output begins with the unchanged
source prefix before the first declaration span. -/
theorem formatAssembleMem_take_before (src : Str) (cap f lastEnd : Nat) (rwb : Str)
    (k : Nat) (hk1 : k ≤ f - 1) (hk2 : k ≤ src.length) (hcap : src.length ≤ cap) :
    (formatAssembleMem src cap f lastEnd rwb).1.take k = src.take k := by
  unfold formatAssembleMem
  simp only
  set L := src.length with hL
  set A := src ++ List.replicate (cap - L) (Char.ofNat 0) with hA
  have hAlen : A.length = cap := by
    rw [hA]; simp only [List.length_append, List.length_replicate]; omega
  have hAtake : A.take k = src.take k := by
    rw [hA]; exact List.take_append_of_le_length hk2
  split_ifs with hfit1 hfit2
  · have hA1len : (goWriteAt A (f - 1) rwb).length = cap := by
      unfold goWriteAt
      simp only [List.length_append, List.length_take, List.length_drop, hAlen]
      omega
    rw [take_take_of_le _ (by omega : k ≤ f - 1 + rwb.length + (L - lastEnd))]
    rw [goWriteAt_take_before _ _ _ k (by omega) (by omega)]
    rw [goWriteAt_take_before _ _ _ k (by omega) (by omega)]
    exact hAtake
  · rw [List.take_append_of_le_length (by
      simp only [List.length_take]
      have hA1len : (goWriteAt A (f - 1) rwb).length = cap := by
        unfold goWriteAt
        simp only [List.length_append, List.length_take, List.length_drop, hAlen]
        omega
      omega)]
    rw [take_take_of_le _ (by omega : k ≤ f - 1 + rwb.length)]
    rw [goWriteAt_take_before _ _ _ k (by omega) (by omega)]
    exact hAtake
  · rw [List.take_append_of_le_length (by
      simp only [List.length_append, List.length_take]
      omega)]
    rw [List.take_append_of_le_length (by
      simp only [List.length_take]
      omega)]
    exact take_take_of_le src hk1

/-! ### Case analysis of the comparator, for the method-clustering claims -/

theorem declCmp_method_any (m X : Declaration) (hm : m.tok = METHOD) :
    declCmp m X = compareMethodToDecl m X := by
  unfold declCmp; rw [if_pos hm]

theorem declCmp_nonmethod_method (a m : Declaration) (ha : a.tok ≠ METHOD)
    (hm : m.tok = METHOD) : declCmp a m = -(compareMethodToDecl m a) := by
  unfold declCmp; rw [if_neg ha, if_pos hm]

theorem cmtd_icv (m X : Declaration) (hX : X.tok = IMPORT ∨ X.tok = CONST ∨ X.tok = VAR) :
    compareMethodToDecl m X = 1 := by
  unfold compareMethodToDecl
  rcases hX with h | h | h <;> rw [h]

theorem cmtd_func (m F : Declaration) (hF : F.tok = FUNC) :
    compareMethodToDecl m F = -1 := by
  unfold compareMethodToDecl; rw [hF]

theorem cmtd_type (m T : Declaration) (hT : T.tok = TYPE) :
    compareMethodToDecl m T =
      if getTypeName T = getReceiverTypeName m then 1
      else compareStringsWithWholeNumbers (getReceiverTypeName m) (getTypeName T) := by
  unfold compareMethodToDecl; rw [hT]

theorem cmtd_method (m m' : Declaration) (hm' : m'.tok = METHOD) :
    compareMethodToDecl m m' =
      if compareStringsWithWholeNumbers (getReceiverTypeName m) (getReceiverTypeName m') = 0 then
        compareStringsWithWholeNumbers (getFunctionName m) (getFunctionName m')
      else compareStringsWithWholeNumbers (getReceiverTypeName m) (getReceiverTypeName m') := by
  unfold compareMethodToDecl; rw [hm']

theorem declCmp_diff_tok (a b : Declaration) (ha : a.tok ≠ METHOD) (hb : b.tok ≠ METHOD)
    (hab : a.tok ≠ b.tok) : declCmp a b = cmpN (declOrder a.tok) (declOrder b.tok) := by
  unfold declCmp
  rw [if_neg ha, if_neg hb, if_pos (by simpa using hab)]

theorem declCmp_type_type (a b : Declaration) (ha : a.tok = TYPE) (hb : b.tok = TYPE) :
    declCmp a b = compareStringsWithWholeNumbers (getTypeName a) (getTypeName b) := by
  unfold declCmp
  rw [if_neg (by simp [ha]), if_neg (by simp [hb]), if_neg (by simp [ha, hb])]
  rw [ha]

/-- The name under which a declaration takes part in type/method placement. -/
def sortName (d : Declaration) : Str :=
  if d.tok = TYPE then getTypeName d else if d.tok = METHOD then getReceiverTypeName d else []

/-- Membership in the cluster of a receiver/type name `R`: the type
declaration named `R` or a method on `R`. -/
def RBlock (R : Str) (d : Declaration) : Prop :=
  (d.tok = TYPE ∧ getTypeName d = R) ∨ (d.tok = METHOD ∧ getReceiverTypeName d = R)

instance (R : Str) (d : Declaration) : Decidable (RBlock R d) := by
  unfold RBlock; infer_instance

theorem sortName_of_rblock {R : Str} {d : Declaration} (h : RBlock R d) : sortName d = R := by
  rcases h with ⟨h1, h2⟩ | ⟨h1, h2⟩ <;> simp [sortName, h1, h2]

/-- Anything the comparator places between two members of `R`'s cluster is a
member of the cluster, provided no distinct name ties with `R` under the
numeric-aware comparison. -/
theorem block_between (R : Str) (a X b : Declaration)
    (ha : RBlock R a) (hb : RBlock R b)
    (h1 : declCmp a X ≤ 0) (h2 : declCmp X b ≤ 0)
    (hX : compareStringsWithWholeNumbers (sortName X) R = 0 → sortName X = R) :
    RBlock R X := by
  cases hXtok : X.tok with
  | IMPORT | CONST | VAR =>
    exfalso
    rcases ha with ⟨haT, haN⟩ | ⟨haM, haN⟩
    · rw [declCmp_diff_tok a X (by simp [haT]) (by simp [hXtok]) (by simp [haT, hXtok]),
        haT, hXtok] at h1
      norm_num [declOrder, cmpN] at h1
    · rw [declCmp_method_any a X haM, cmtd_icv a X (by simp [hXtok])] at h1
      norm_num at h1
  | FUNC =>
    exfalso
    rcases hb with ⟨hbT, hbN⟩ | ⟨hbM, hbN⟩
    · rw [declCmp_diff_tok X b (by simp [hXtok]) (by simp [hbT]) (by simp [hbT, hXtok]),
        hbT, hXtok] at h2
      norm_num [declOrder, cmpN] at h2
    · rw [declCmp_nonmethod_method X b (by simp [hXtok]) hbM, cmtd_func b X hXtok] at h2
      norm_num at h2
  | TYPE =>
    by_cases hTR : getTypeName X = R
    · exact Or.inl ⟨hXtok, hTR⟩
    exfalso
    have hXs : sortName X = getTypeName X := by simp [sortName, hXtok]
    have hle : compareStringsWithWholeNumbers R (getTypeName X) ≤ 0 := by
      rcases ha with ⟨haT, haN⟩ | ⟨haM, haN⟩
      · rw [declCmp_type_type a X haT hXtok, haN] at h1
        exact h1
      · rw [declCmp_method_any a X haM, cmtd_type a X hXtok, haN,
          if_neg hTR] at h1
        exact h1
    have hge : 0 ≤ compareStringsWithWholeNumbers R (getTypeName X) := by
      rcases hb with ⟨hbT, hbN⟩ | ⟨hbM, hbN⟩
      · rw [declCmp_type_type X b hXtok hbT, hbN] at h2
        have := cswn_antisymm (getTypeName X) R
        omega
      · rw [declCmp_nonmethod_method X b (by simp [hXtok]) hbM, cmtd_type b X hXtok,
          hbN, if_neg hTR] at h2
        omega
    have h0 : compareStringsWithWholeNumbers (getTypeName X) R = 0 := by
      have := cswn_antisymm (getTypeName X) R
      omega
    exact hTR (hXs ▸ hX (hXs ▸ h0))
  | METHOD =>
    by_cases hNR : getReceiverTypeName X = R
    · exact Or.inr ⟨hXtok, hNR⟩
    exfalso
    have hXs : sortName X = getReceiverTypeName X := by simp [sortName, hXtok]
    have hName : compareStringsWithWholeNumbers (getReceiverTypeName X) R = 0 → False := by
      intro h0
      exact hNR (hXs ▸ hX (hXs ▸ h0))
    have hge : 0 ≤ compareStringsWithWholeNumbers (getReceiverTypeName X) R := by
      rcases ha with ⟨haT, haN⟩ | ⟨haM, haN⟩
      · rw [declCmp_nonmethod_method a X (by simp [haT]) hXtok, cmtd_type X a haT, haN] at h1
        rw [if_neg (fun hh => hNR hh.symm)] at h1
        omega
      · rw [declCmp_method_any a X haM, cmtd_method a X hXtok, haN] at h1
        by_cases hc : compareStringsWithWholeNumbers R (getReceiverTypeName X) = 0
        · exfalso
          refine hName ?_
          have := cswn_antisymm R (getReceiverTypeName X)
          omega
        · rw [if_neg hc] at h1
          have := cswn_antisymm R (getReceiverTypeName X)
          omega
    have hle : compareStringsWithWholeNumbers (getReceiverTypeName X) R ≤ 0 := by
      rcases hb with ⟨hbT, hbN⟩ | ⟨hbM, hbN⟩
      · rw [declCmp_method_any X b hXtok, cmtd_type X b hbT, hbN] at h2
        by_cases hRN : R = getReceiverTypeName X
        · exact absurd hRN.symm hNR
        · rw [if_neg hRN] at h2
          exact h2
      · rw [declCmp_method_any X b hXtok, cmtd_method X b hbM, hbN] at h2
        by_cases hc : compareStringsWithWholeNumbers (getReceiverTypeName X) R = 0
        · exact absurd hc hName
        · rw [if_neg hc] at h2
          exact h2
    exact hName (by omega)

/-- A method never sorts at or before the type declaration that owns it. -/
theorem method_after_own_type (m T : Declaration) (hm : m.tok = METHOD)
    (hT : T.tok = TYPE) (hR : getTypeName T = getReceiverTypeName m) :
    ¬ declCmp m T ≤ 0 := by
  rw [declCmp_method_any m T hm, cmtd_type m T hT, if_pos hR]
  norm_num

/-- A function never sorts at or before a method. -/
theorem func_not_before_method (F m : Declaration) (hF : F.tok = FUNC)
    (hm : m.tok = METHOD) : ¬ declCmp F m ≤ 0 := by
  rw [declCmp_nonmethod_method F m (by simp [hF]) hm, cmtd_func m F hF]
  norm_num

/-- Methods on the same receiver are compared by method name. -/
theorem method_method_same_recv (m m' : Declaration) (hm : m.tok = METHOD)
    (hm' : m'.tok = METHOD) (hr : getReceiverTypeName m = getReceiverTypeName m')
    (h : declCmp m m' ≤ 0) :
    compareStringsWithWholeNumbers (getFunctionName m) (getFunctionName m') ≤ 0 := by
  rw [declCmp_method_any m m' hm, cmtd_method m m' hm', hr, if_pos (cswn_self _)] at h
  exact h

/-- Same-category non-method declarations in {Import, Const, Var} are
compared by original index. -/
theorem declCmp_same_icv (a b : Declaration) (t : GoTok) (ha : a.tok = t) (hb : b.tok = t)
    (ht : t = IMPORT ∨ t = CONST ∨ t = VAR) :
    declCmp a b = cmpN a.originalOrder b.originalOrder := by
  have hab : a.tok = b.tok := ha.trans hb.symm
  rcases ht with h | h | h <;> subst h <;>
  · unfold declCmp
    rw [if_neg (by simp [ha]), if_neg (by simp [hb]), if_neg (by simp [hab]), ha]

/-! ### Concrete example files and declaration records

Each `AstFile` below is the parse of the accompanying source string (1-based
positions; a declaration's `End` is one past its last character), written
out by hand exactly as go/parser reports them. -/

/-- A bare type declaration record (placement-irrelevant fields zeroed). -/
def mkType (nm : Str) (o : Nat) : Declaration :=
  ⟨TYPE, [], nm, none, o, [], 0, 0⟩

/-- A bare function declaration record. -/
def mkFunc (nm : Str) (o : Nat) : Declaration :=
  ⟨FUNC, nm, [], none, o, [], 0, 0⟩

/-- A bare method declaration record with an identifier receiver. -/
def mkMethod (recvName nm : Str) (o : Nat) : Declaration :=
  ⟨METHOD, nm, [], some (.ident recvName), o, [], 0, 0⟩

/-- A comment block sits between the package clause and the first
declaration; the declarations are unsorted (`b` before `a`). -/
def srcC2 : Str := "package p\n\n// c\ntype b int\n\ntype a int\n".data

def fileC2 : AstFile :=
  ⟨some "p".data, 1,
    [.genDecl 17 27 TYPE "b".data, .genDecl 29 39 TYPE "a".data], [12]⟩

/-- Sorted declarations separated by a single newline (no blank line). -/
def srcC3 : Str := "package p\ntype a int\ntype b int\n".data

def fileC3 : AstFile :=
  ⟨some "p".data, 1,
    [.genDecl 11 21 TYPE "a".data, .genDecl 22 32 TYPE "b".data], []⟩

/-- Sorted declarations separated by one blank line (the layout `Format`
itself produces). -/
def srcC3w : Str := "package p\n\ntype a int\n\ntype b int\n".data

def fileC3w : AstFile :=
  ⟨some "p".data, 1,
    [.genDecl 12 22 TYPE "a".data, .genDecl 24 34 TYPE "b".data], []⟩

/-- Three methods whose receiver names `x0` and `x00` are distinct but
compare equal under the numeric-aware comparison. -/
def srcC4 : Str :=
  "package p\n\nfunc (r x0) a() {}\n\nfunc (r x00) b() {}\n\nfunc (r x0) c() {}\n".data

def fileC4 : AstFile :=
  ⟨some "p".data, 1,
    [.funcDecl 12 30 "a".data (some (.ident "x0".data)),
     .funcDecl 32 51 "b".data (some (.ident "x00".data)),
     .funcDecl 53 71 "c".data (some (.ident "x0".data))], []⟩

/-- A type with one method and one plain function, tie-free names. -/
def srcC4w : Str :=
  "package p\n\ntype Foo int\n\nfunc (f Foo) A() {}\n\nfunc f() {}\n".data

def fileC4w : AstFile :=
  ⟨some "p".data, 1,
    [.genDecl 12 24 TYPE "Foo".data,
     .funcDecl 26 45 "A".data (some (.ident "Foo".data)),
     .funcDecl 47 58 "f".data none], []⟩

/-- Two function declarations both named `main` (syntactically valid Go;
the parser performs no duplicate-name check). -/
def srcC7 : Str := "package p\n\nfunc main() { a() }\n\nfunc main() { b() }\n".data

def fileC7 : AstFile :=
  ⟨some "p".data, 1,
    [.funcDecl 12 31 "main".data none, .funcDecl 33 52 "main".data none], []⟩

/-- Unsorted declarations separated by blank lines: the rewritten region is
no longer than the original, so line 84 writes in place. -/
def srcC9 : Str := "package p\n\ntype b int\n\ntype a int\n".data

def fileC9 : AstFile :=
  ⟨some "p".data, 1,
    [.genDecl 12 22 TYPE "b".data, .genDecl 24 34 TYPE "a".data], []⟩

def dC9h : Declaration :=
  ⟨TYPE, [], "b".data, none, 0, "type b int\n".data, 12, 22⟩

def dC9t : Declaration :=
  ⟨TYPE, [], "a".data, none, 1, "type a int\n".data, 24, 34⟩

/-! ### The claims -/

/-- C1: the claim states the numeric-aware comparison makes "item2" precede
"item10" and sorts type names item2, item10, item9 as item2, item9, item10.
The code contradicts its own documentation ("item2" < "item10" because
2 < 10): at the first differing byte it compares by byte value even when
both bytes are digits, so it returns 1 on ("item2", "item10") — item10
sorts first — and the sorted order of the three type names is item10,
item2, item9. -/
theorem C1_code_bug_eval :
    compareStringsWithWholeNumbers "item2".data "item10".data = 1 ∧
    compareStringsWithWholeNumbers "item10".data "item9".data = -1 ∧
    (insertionSortGo declCmp
        [mkType "item2".data 0, mkType "item10".data 1, mkType "item9".data 2]).map
      getTypeName = ["item10".data, "item2".data, "item9".data] := by
  decide

/-- C2 counterexample: in `srcC2` the comment block at position 12 lies
between the package clause's newline (position 10) and the first
declaration (position 17).  It is carried by the first declaration record
(the record's span starts at 12 and its text begins with the comment), and
the output moves it together with `type b` instead of preserving it in
place. -/
theorem C2_counterexample :
    ((getDecls fileC2 srcC2).map (fun d => (d.startPos, d.text))).head? =
      some (12, "// c\ntype b int\n".data) ∧
    Format fileC2 srcC2 39 = "package p\n\ntype a int\n\n// c\ntype b int\n".data ∧
    ¬ Format fileC2 srcC2 39 = srcC2 := by
  decide

/-- C2 (amended): comment blocks before the first newline after the package
clause are outside the reordering region — every declaration record's span
starts at or after that newline, and the output preserves the bytes before
it unchanged.  A comment block between that newline and the first
declaration, however, is attached to the first declaration record and moves
with it. -/
theorem C2_amended_thm (file : AstFile) (src : Str) (cap : Nat) (p : Nat)
    (hp : newlinePosAfterPackageDecl file src = some p)
    (hdp : ∀ d ∈ file.decls, p ≤ d.pos ∧ d.pos ≤ d.endPos)
    (hpL : p ≤ src.length) (hcap : src.length ≤ cap) :
    (∀ r ∈ getDecls file src, p ≤ r.startPos) ∧
    (Format file src cap).take (p - 1) = src.take (p - 1) ∧
    (∀ d₀ ds c, file.decls = d₀ :: ds →
      (file.comments.dropWhile (fun x => x < p)).head? = some c →
      c < d₀.pos →
      ∃ r rs, getDecls file src = r :: rs ∧ r.startPos = c ∧
        r.text = (src.drop (c - 1)).take (d₀.endPos - (c - 1))) := by
  have h1 : ∀ r ∈ getDecls file src, p ≤ r.startPos := by
    unfold getDecls
    rw [hp]
    simp only [Option.getD_some]
    exact getDeclsLoop_startPos_ge src file.decls file.comments p 0 p (le_refl p) hdp
  refine ⟨h1, ?_, ?_⟩
  · unfold Format FormatMem
    cases hd : getDecls file src with
    | nil => rfl
    | cons d ds =>
      have hdp1 : p ≤ d.startPos := h1 d (by rw [hd]; simp)
      exact formatAssembleMem_take_before src cap d.startPos _ _ (p - 1)
        (by omega) (by omega) hcap
  · intro d₀ ds c hdecls hc hlt
    exact getDecls_first_comment_attached file src p d₀ ds c hp hdecls hc hlt

/-- C2 witness: the amended statement at `fileC2`/`srcC2` with the package
newline at position 10. -/
theorem C2_witness :
    (newlinePosAfterPackageDecl fileC2 srcC2 = some 10 ∧
     (∀ d ∈ fileC2.decls, 10 ≤ d.pos ∧ d.pos ≤ d.endPos) ∧
     10 ≤ srcC2.length ∧ srcC2.length ≤ 39) ∧
    ((∀ r ∈ getDecls fileC2 srcC2, 10 ≤ r.startPos) ∧
     (Format fileC2 srcC2 39).take 9 = srcC2.take 9 ∧
     (∀ d₀ ds c, fileC2.decls = d₀ :: ds →
       (fileC2.comments.dropWhile (fun x => x < 10)).head? = some c →
       c < d₀.pos →
       ∃ r rs, getDecls fileC2 srcC2 = r :: rs ∧ r.startPos = c ∧
         r.text = (srcC2.drop (c - 1)).take (d₀.endPos - (c - 1)))) :=
  ⟨⟨by decide, by decide, by decide, by decide⟩,
    C2_amended_thm fileC2 srcC2 39 10 (by decide) (by decide) (by decide) (by decide)⟩

/-- C3 counterexample: `srcC3` parses to two already-sorted declarations
separated by a single newline, yet the output inserts a blank line (the
captured spans end one byte past each declaration and `bytes.Join` adds one
more newline), so the bytes differ. -/
theorem C3_counterexample :
    (getDecls fileC3 srcC3).Pairwise (fun a b => declCmp a b ≤ 0 ∧ 0 ≤ declCmp b a) ∧
    Format fileC3 srcC3 32 = "package p\ntype a int\n\ntype b int\n".data ∧
    ¬ Format fileC3 srcC3 32 = srcC3 := by
  decide

/-- C3 (amended): the output is byte-identical to the input when the
declarations are already in sorted order and, additionally, consecutive
captured spans are separated by exactly one newline byte — i.e. the
declarations are separated by one blank line, the layout whose span
capture (one byte past each declaration) plus the single join newline
reproduces the original gaps. -/
theorem C3_amended_thm (file : AstFile) (src : Str) (cap : Nat)
    (htile : spanTiledB src (getDecls file src) = true)
    (hsorted : (getDecls file src).Pairwise (fun a b => declCmp a b ≤ 0 ∧ 0 ≤ declCmp b a))
    (hcap : src.length ≤ cap) :
    Format file src cap = src :=
  format_eq_self file src cap htile hsorted hcap

/-- C3 witness: the amended statement at the blank-line-separated sorted
file `srcC3w`. -/
theorem C3_witness :
    (spanTiledB srcC3w (getDecls fileC3w srcC3w) = true ∧
     (getDecls fileC3w srcC3w).Pairwise (fun a b => declCmp a b ≤ 0 ∧ 0 ≤ declCmp b a) ∧
     srcC3w.length ≤ 34) ∧
    Format fileC3w srcC3w 34 = srcC3w :=
  ⟨⟨by decide, by decide, by decide⟩,
    C3_amended_thm fileC3w srcC3w 34 (by decide) (by decide) (by decide)⟩

/-- The emergent method-clustering discipline of the sorted output: the
cluster of `R` (its type declaration and its methods) is contiguous, the
type comes first in it, methods of the same receiver are ordered by
method name, every method precedes every plain function, and the cluster
sits at the position the name `R` occupies among the type declarations
(an `R`-method precedes exactly the type declarations whose names sort
after `R` and follows those whose names sort before `R` — the placement a
type named `R` would get, also when no such type is present). -/
def methodClusterSpec (l' : List Declaration) (R : Str) : Prop :=
  (∀ i j k, ∀ h1 : i < j, ∀ h2 : j < k, ∀ h3 : k < l'.length,
    RBlock R (l'.get ⟨i, by omega⟩) → RBlock R (l'.get ⟨k, h3⟩) →
    RBlock R (l'.get ⟨j, by omega⟩)) ∧
  (∀ i j, ∀ h1 : i < j, ∀ h2 : j < l'.length,
    (l'.get ⟨i, by omega⟩).tok = METHOD →
    getReceiverTypeName (l'.get ⟨i, by omega⟩) = R →
    ¬ ((l'.get ⟨j, h2⟩).tok = TYPE ∧ getTypeName (l'.get ⟨j, h2⟩) = R)) ∧
  (∀ i j, ∀ h1 : i < j, ∀ h2 : j < l'.length,
    (l'.get ⟨i, by omega⟩).tok = METHOD → (l'.get ⟨j, h2⟩).tok = METHOD →
    getReceiverTypeName (l'.get ⟨i, by omega⟩) = getReceiverTypeName (l'.get ⟨j, h2⟩) →
    compareStringsWithWholeNumbers (getFunctionName (l'.get ⟨i, by omega⟩))
      (getFunctionName (l'.get ⟨j, h2⟩)) ≤ 0) ∧
  (∀ i j, ∀ h1 : i < j, ∀ h2 : j < l'.length,
    (l'.get ⟨i, by omega⟩).tok = FUNC → ¬ (l'.get ⟨j, h2⟩).tok = METHOD) ∧
  (∀ i j, ∀ h1 : i < j, ∀ h2 : j < l'.length,
    ((l'.get ⟨i, by omega⟩).tok = METHOD →
     getReceiverTypeName (l'.get ⟨i, by omega⟩) = R →
     (l'.get ⟨j, h2⟩).tok = TYPE → getTypeName (l'.get ⟨j, h2⟩) ≠ R →
     compareStringsWithWholeNumbers R (getTypeName (l'.get ⟨j, h2⟩)) < 0) ∧
    ((l'.get ⟨i, by omega⟩).tok = TYPE → getTypeName (l'.get ⟨i, by omega⟩) ≠ R →
     (l'.get ⟨j, h2⟩).tok = METHOD → getReceiverTypeName (l'.get ⟨j, h2⟩) = R →
     compareStringsWithWholeNumbers (getTypeName (l'.get ⟨i, by omega⟩)) R < 0))

/-- C4 counterexample: with receiver names `x0` and `x00` — distinct, but
tied under the numeric-aware comparison — `Format`'s own sorted output
interleaves the methods of `x0` with the method of `x00` (same-receiver
ordering falls through to method names), so the methods of receiver `x0` do
not form a contiguous block. -/
theorem C4_counterexample :
    (sortedDecls fileC4 srcC4).map (fun d => (getReceiverTypeName d, getFunctionName d)) =
      [("x0".data, "a".data), ("x00".data, "b".data), ("x0".data, "c".data)] ∧
    (sortedDecls fileC4 srcC4).Pairwise (fun a b => declCmp a b ≤ 0) ∧
    compareStringsWithWholeNumbers "x0".data "x00".data = 0 ∧
    Format fileC4 srcC4 71 = srcC4 := by
  decide

/-- C4 (amended): in any sorted permutation of the extracted declarations,
provided no name distinct from `R` compares equal to `R` (which zero-padded
digit runs such as `x0`/`x00` violate), the cluster of `R` is contiguous
with the type first, same-receiver methods are ordered by numeric-aware
method-name comparison, every method precedes every plain function, and an
`R`-method sits among the type declarations exactly where the name `R`
would sort — before the types whose names sort after `R` and after those
whose names sort before `R`, whether or not a type named `R` is present. -/
theorem C4_amended_thm (file : AstFile) (src : Str) (l' : List Declaration) (R : Str)
    (hperm : (getDecls file src).Perm l')
    (hsort : l'.Pairwise (fun a b => declCmp a b ≤ 0))
    (hnt : ∀ x ∈ l', compareStringsWithWholeNumbers (sortName x) R = 0 → sortName x = R) :
    methodClusterSpec l' R := by
  have hpw := List.pairwise_iff_getElem.mp hsort
  refine ⟨?_, ?_, ?_, ?_, ?_⟩
  · intro i j k h1 h2 h3 hbi hbk
    refine block_between R _ _ _ hbi hbk
      (hpw i j (by omega) (by omega) h1) (hpw j k (by omega) h3 h2)
      (hnt _ (List.get_mem l' _ _))
  · intro i j h1 h2 hm hr hTy
    exact method_after_own_type _ _ hm hTy.1 (by rw [hTy.2, hr])
      (hpw i j (by omega) h2 h1)
  · intro i j h1 h2 hmi hmj hrr
    exact method_method_same_recv _ _ hmi hmj hrr (hpw i j (by omega) h2 h1)
  · intro i j h1 h2 hF hM
    exact func_not_before_method _ _ hF hM (hpw i j (by omega) h2 h1)
  · intro i j h1 h2
    constructor
    · intro hm hr hT hTne
      have hle : declCmp (l'.get ⟨i, by omega⟩) (l'.get ⟨j, h2⟩) ≤ 0 :=
        hpw i j (by omega) h2 h1
      rw [declCmp_method_any _ _ hm, cmtd_type _ _ hT, hr, if_neg hTne] at hle
      rcases lt_or_eq_of_le hle with hlt | h0
      · exact hlt
      · exfalso
        have hs : sortName (l'.get ⟨j, h2⟩) = getTypeName (l'.get ⟨j, h2⟩) := by
          unfold sortName
          rw [if_pos hT]
        have hanti := cswn_antisymm (getTypeName (l'.get ⟨j, h2⟩)) R
        have := hnt _ (List.get_mem l' _ _) (by rw [hs]; omega)
        rw [hs] at this
        exact hTne this
    · intro hT hTne hm hr
      have hle : declCmp (l'.get ⟨i, by omega⟩) (l'.get ⟨j, h2⟩) ≤ 0 :=
        hpw i j (by omega) h2 h1
      rw [declCmp_nonmethod_method _ _ (by
          intro hc
          exact absurd (hT.symm.trans hc) (by decide)) hm, cmtd_type _ _ hT, hr,
        if_neg hTne] at hle
      have hanti := cswn_antisymm (getTypeName (l'.get ⟨i, by omega⟩)) R
      have hne0 : ¬ compareStringsWithWholeNumbers (getTypeName (l'.get ⟨i, by omega⟩)) R = 0 := by
        intro h0
        have hs : sortName (l'.get ⟨i, by omega⟩) = getTypeName (l'.get ⟨i, by omega⟩) := by
          unfold sortName
          rw [if_pos hT]
        have := hnt _ (List.get_mem l' _ _) (by rw [hs]; exact h0)
        rw [hs] at this
        exact hTne this
      omega

/-- C4 witness: the amended statement at the tie-free file `srcC4w`, whose
extracted sequence (type Foo, method A on Foo, func f) is already sorted. -/
theorem C4_witness :
    ((getDecls fileC4w srcC4w).Perm (getDecls fileC4w srcC4w) ∧
     (getDecls fileC4w srcC4w).Pairwise (fun a b => declCmp a b ≤ 0) ∧
     (∀ x ∈ getDecls fileC4w srcC4w,
       compareStringsWithWholeNumbers (sortName x) "Foo".data = 0 →
         sortName x = "Foo".data)) ∧
    methodClusterSpec (getDecls fileC4w srcC4w) "Foo".data :=
  ⟨⟨List.Perm.refl _, by decide, by decide⟩,
    C4_amended_thm fileC4w srcC4w (getDecls fileC4w srcC4w) "Foo".data
      (List.Perm.refl _) (by decide) (by decide)⟩

/-- C5 counterexample: two functions both named `main` compare -1 in both
directions, violating antisymmetry (and compare-equal-keys-to-0); and the
comparator is not transitively consistent: a type named `x0` ties with a
method on `x00` but sorts strictly before a method on `x0`, while the two
methods compare strictly the other way. -/
theorem C5_counterexample :
    (declCmp (mkFunc "main".data 0) (mkFunc "main".data 1) = -1 ∧
     declCmp (mkFunc "main".data 1) (mkFunc "main".data 0) = -1 ∧
     ¬ declCmp (mkFunc "main".data 0) (mkFunc "main".data 1) =
        -(declCmp (mkFunc "main".data 1) (mkFunc "main".data 0))) ∧
    (declCmp (mkType "x0".data 0) (mkMethod "x00".data "z".data 1) = 0 ∧
     declCmp (mkType "x0".data 0) (mkMethod "x0".data "a".data 2) = -1 ∧
     declCmp (mkMethod "x00".data "z".data 1) (mkMethod "x0".data "a".data 2) = 1) := by
  decide

/-- C5 (amended): for every pair of declaration records that are not both
functions named `main`, the comparator is antisymmetric
(`compare(a,b) = -compare(b,a)`) and returns 0 on records with the same
sort key.  (Transitive consistency fails in general, and both properties
fail on a pair of `main` functions; see the counterexample.) -/
theorem C5_amended_thm (a b : Declaration) (h : ¬ bothMainFuncs a b) :
    declCmp a b = -(declCmp b a) ∧ (sameSortKey a b → declCmp a b = 0) :=
  ⟨declCmp_antisymm a b h, fun hk => declCmp_eq_zero_of_sameSortKey a b hk h⟩

/-- C5 witness: the amended statement at two type declarations. -/
theorem C5_witness :
    ¬ bothMainFuncs (mkType "t".data 0) (mkType "u".data 1) ∧
    (declCmp (mkType "t".data 0) (mkType "u".data 1) =
      -(declCmp (mkType "u".data 1) (mkType "t".data 0)) ∧
     (sameSortKey (mkType "t".data 0) (mkType "u".data 1) →
       declCmp (mkType "t".data 0) (mkType "u".data 1) = 0)) :=
  ⟨by decide, C5_amended_thm (mkType "t".data 0) (mkType "u".data 1) (by decide)⟩

/-- C6: the sorted declaration sequence `Format` assembles its output from
is a permutation of the extracted sequence — reordering never creates,
drops or duplicates a declaration — and hence the multiset of
(category, name, receiverType) triples is preserved. -/
theorem C6_thm (file : AstFile) (src : Str) :
    (sortedDecls file src).Perm (getDecls file src) ∧
    ((sortedDecls file src).map
        (fun d => (d.tok, getFunctionName d, getReceiverTypeName d))).Perm
      ((getDecls file src).map
        (fun d => (d.tok, getFunctionName d, getReceiverTypeName d))) := by
  have h := insertionSortGo_perm declCmp (getDecls file src)
  exact ⟨h, h.map _⟩

/-- C7 counterexample: on a file with two functions both named `main`
(syntactically valid), the comparator returns -1 in both directions, so the
insertion sort used by `slices.SortFunc` for short slices swaps them on
every pass: formatting the output swaps them back, and
`Format(f, Format(f, s)) ≠ Format(f, s)`.  (`fileC7` is position-wise the
parse of both `srcC7` and the first output, whose layouts coincide.) -/
theorem C7_counterexample :
    Format fileC7 srcC7 52 =
      "package p\n\nfunc main() { b() }\n\nfunc main() { a() }\n".data ∧
    Format fileC7 (Format fileC7 srcC7 52) 52 = srcC7 ∧
    ¬ Format fileC7 (Format fileC7 srcC7 52) 52 = Format fileC7 srcC7 52 := by
  decide

/-- C7 (amended): a second `Format` pass returns its input unchanged
whenever the parse of the first output yields declaration records that are
already sorted (which fails when two functions are named `main`) and tile
the output with single-newline gaps — the layout `Format` itself produces
on comment-free blank-line-separated files. -/
theorem C7_amended_thm (file₁ : AstFile) (src : Str) (cap₁ : Nat)
    (file₂ : AstFile) (cap₂ : Nat)
    (htile : spanTiledB (Format file₁ src cap₁)
      (getDecls file₂ (Format file₁ src cap₁)) = true)
    (hsorted : (getDecls file₂ (Format file₁ src cap₁)).Pairwise
      (fun a b => declCmp a b ≤ 0 ∧ 0 ≤ declCmp b a))
    (hcap : (Format file₁ src cap₁).length ≤ cap₂) :
    Format file₂ (Format file₁ src cap₁) cap₂ = Format file₁ src cap₁ :=
  format_eq_self file₂ (Format file₁ src cap₁) cap₂ htile hsorted hcap

/-- C7 witness: the amended statement with both passes on `srcC3w` (whose
first pass is the identity). -/
theorem C7_witness :
    (spanTiledB (Format fileC3w srcC3w 34)
      (getDecls fileC3w (Format fileC3w srcC3w 34)) = true ∧
     (getDecls fileC3w (Format fileC3w srcC3w 34)).Pairwise
      (fun a b => declCmp a b ≤ 0 ∧ 0 ≤ declCmp b a) ∧
     (Format fileC3w srcC3w 34).length ≤ 34) ∧
    Format fileC3w (Format fileC3w srcC3w 34) 34 = Format fileC3w srcC3w 34 :=
  ⟨⟨by decide, by decide, by decide⟩,
    C7_amended_thm fileC3w srcC3w 34 fileC3w 34 (by decide) (by decide) (by decide)⟩

/-- C8: within each of the Import, Const and Var categories the output
preserves the input order exactly: the comparator orders same-category
pairs by `originalOrder`, which `getDecls` assigns strictly increasing
along the input, so during its insertion an element never moves past an
earlier element of its own category.  This holds unconditionally for the
program's sort, with no sortedness assumption on the result (the comparator
is not a consistent order — see C5 — and `slices.SortFunc` is not stable,
the source's "stable sort" comment notwithstanding; neither matters for
these categories). -/
theorem C8_thm (file : AstFile) (src : Str) :
    (sortedDecls file src).filter (fun d => d.tok = IMPORT) =
      (getDecls file src).filter (fun d => d.tok = IMPORT) ∧
    (sortedDecls file src).filter (fun d => d.tok = CONST) =
      (getDecls file src).filter (fun d => d.tok = CONST) ∧
    (sortedDecls file src).filter (fun d => d.tok = VAR) =
      (getDecls file src).filter (fun d => d.tok = VAR) := by
  have key : ∀ t : GoTok, t = IMPORT ∨ t = CONST ∨ t = VAR →
      (sortedDecls file src).filter (fun d => d.tok = t) =
        (getDecls file src).filter (fun d => d.tok = t) := by
    intro t ht
    unfold sortedDecls
    refine insertionSortGo_filter_stable declCmp _ _
      ((getDecls_orders_pairwise file src).imp ?_)
    intro a b hab hpa hpb
    have hta : a.tok = t := of_decide_eq_true hpa
    have htb : b.tok = t := of_decide_eq_true hpb
    rw [declCmp_same_icv b a t htb hta ht]
    unfold cmpN
    split_ifs <;> omega
  exact ⟨key IMPORT (Or.inl rfl), key CONST (Or.inr (Or.inl rfl)),
    key VAR (Or.inr (Or.inr rfl))⟩

/-- Unfolding of `FormatMem` on a file with at least one declaration. -/
theorem FormatMem_cons (file : AstFile) (src : Str) (cap : Nat)
    (d : Declaration) (ds : List Declaration) (hd : getDecls file src = d :: ds) :
    FormatMem file src cap = formatAssembleMem src cap d.startPos
      (((d :: ds).getLast (by simp)).endPos)
      (joinNewline ((insertionSortGo declCmp (d :: ds)).map Declaration.text)) := by
  unfold FormatMem
  cases hd2 : getDecls file src with
  | nil => rw [hd2] at hd; exact absurd hd (by simp)
  | cons d' ds' =>
    rw [hd2] at hd
    injection hd with hda hdb
    subst hda
    subst hdb
    rfl

/-- C9 counterexample: on `srcC9` the reassembled bytes fit the input
buffer's capacity, so line 84's `append` writes them into the input
buffer's backing array: the returned slice aliases the buffer (`true`) and
the buffer's contents are changed to the output. -/
theorem C9_counterexample :
    (FormatMem fileC9 srcC9 34).2.2 = true ∧
    ¬ (FormatMem fileC9 srcC9 34).2.1 = srcC9 ∧
    (FormatMem fileC9 srcC9 34).2.1 = Format fileC9 srcC9 34 := by
  decide

/-- C9 (amended): the output bytes are a deterministic function of the
input bytes and capacity, but `Format` is not buffer-pure: whenever the
reassembled region is no longer than the original (so both `append`s of
line 84 fit within the capacity), the result slice aliases the input
buffer, whose contents become the output followed by the leftover original
bytes. -/
theorem C9_amended_thm (file : AstFile) (src : Str) (cap : Nat)
    (d : Declaration) (ds : List Declaration)
    (hd : getDecls file src = d :: ds)
    (hle : ((d :: ds).getLast (by simp)).endPos ≤ src.length)
    (hcap : src.length ≤ cap)
    (hfit : d.startPos - 1 +
        (joinNewline ((insertionSortGo declCmp (d :: ds)).map Declaration.text)).length ≤
      ((d :: ds).getLast (by simp)).endPos) :
    (FormatMem file src cap).2.2 = true ∧
    (FormatMem file src cap).2.1 = (FormatMem file src cap).1 ++
      src.drop (d.startPos - 1 +
        (joinNewline ((insertionSortGo declCmp (d :: ds)).map Declaration.text)).length +
        (src.length - ((d :: ds).getLast (by simp)).endPos)) := by
  rw [FormatMem_cons file src cap d ds hd]
  rw [formatAssembleMem_inplace src cap d.startPos
    (((d :: ds).getLast (by simp)).endPos)
    (joinNewline ((insertionSortGo declCmp (d :: ds)).map Declaration.text))
    hfit hle hcap]
  exact ⟨rfl, rfl⟩

/-- C9 witness: the amended statement at `fileC9`/`srcC9`. -/
theorem C9_witness :
    (getDecls fileC9 srcC9 = [dC9h, dC9t] ∧
     (([dC9h, dC9t]).getLast (by simp)).endPos ≤ srcC9.length ∧
     srcC9.length ≤ 34 ∧
     dC9h.startPos - 1 +
       (joinNewline ((insertionSortGo declCmp [dC9h, dC9t]).map Declaration.text)).length ≤
       (([dC9h, dC9t]).getLast (by simp)).endPos) ∧
    ((FormatMem fileC9 srcC9 34).2.2 = true ∧
     (FormatMem fileC9 srcC9 34).2.1 = (FormatMem fileC9 srcC9 34).1 ++
       srcC9.drop (dC9h.startPos - 1 +
         (joinNewline ((insertionSortGo declCmp [dC9h, dC9t]).map Declaration.text)).length +
         (srcC9.length - (([dC9h, dC9t]).getLast (by simp)).endPos))) :=
  ⟨⟨by decide, by decide, by decide, by decide⟩,
    C9_amended_thm fileC9 srcC9 34 dC9h [dC9t] (by decide) (by decide) (by decide) (by decide)⟩

/-- C10: the names `x0` and `x00` are distinct, yet the numeric-aware
comparison returns 0 in both directions (both digit runs strip to the empty
string), and two type declarations so named compare as equal under the sort
comparator, leaving their relative output order undetermined by it. -/
theorem C10_thm :
    compareStringsWithWholeNumbers "x0".data "x00".data = 0 ∧
    compareStringsWithWholeNumbers "x00".data "x0".data = 0 ∧
    ¬ "x0".data = "x00".data ∧
    declCmp (mkType "x0".data 0) (mkType "x00".data 1) = 0 ∧
    declCmp (mkType "x00".data 1) (mkType "x0".data 0) = 0 := by
  decide

end Gorganize
